import Mathlib

/-!
Shallow embedding of the core of the `ruscii` terminal-application runtime
(sources: `src/keyboard.rs`, `src/terminal.rs`, `src/app.rs`, `src/drawing.rs`).

Conventions used throughout:
* Rust `u16` arithmetic is modelled on `Nat` with an explicit `% 65536`
  (release-mode wrapping semantics).
* `std::time::Instant` values are modelled as `Nat` time offsets (milliseconds)
  from an arbitrary origin; `Duration` subtraction that cannot underflow in the
  source is Nat truncated subtraction, and `checked_duration_since` is modelled
  by an explicit order test, exactly mirroring the source's use.
* Channel sends are modelled by returning the list of sent values in order.
* A Rust operation that can panic is modelled with `Option` (`none` = panic).
-/

/-! ## Keyboard data model (`src/keyboard.rs`) -/

/-- The `Key` enum of `src/keyboard.rs`: the keys detectable by ruscii plus the
`Unknown` catch-all. -/
inductive Key where
  | Esc | Space | Enter | Backspace | CapsLock | Tab
  | Up | Down | Left | Right
  | Home | End | PageUp | PageDown | Insert | Delete
  | A | B | C | D | E | F | G | H | I | J | K | L | M
  | N | O | P | Q | R | S | T | U | V | W | X | Y | Z
  | Num0 | Num1 | Num2 | Num3 | Num4 | Num5 | Num6 | Num7 | Num8 | Num9
  | F1 | F2 | F3 | F4 | F5 | F6 | F7 | F8 | F9 | F10 | F11 | F12
  | Grave | Minus | Equal | LeftBracket | RightBracket | BackSlash
  | Semicolon | Apostrophe | Comma | Dot | Slash
  | Unknown
deriving DecidableEq, Repr

/-- The `KeyEvent` enum of `src/keyboard.rs`. -/
inductive KeyEvent where
  | Pressed (k : Key)
  | Released (k : Key)
deriving DecidableEq, Repr

/-- The `device_query::Keycode` enum (the device-level keycodes the device
observer samples).  It contains every keycode matched by
`Keyboard::transform_device_key` plus the unmapped ones (modifier keys),
which fall into the wildcard arm of that match. -/
inductive Keycode where
  | Escape | Space | Enter
  | Up | Down | Left | Right
  | Backspace | CapsLock | Tab | Home | End | PageUp | PageDown | Insert | Delete
  | A | B | C | D | E | F | G | H | I | J | K | L | M
  | N | O | P | Q | R | S | T | U | V | W | X | Y | Z
  | Key0 | Key1 | Key2 | Key3 | Key4 | Key5 | Key6 | Key7 | Key8 | Key9
  | F1 | F2 | F3 | F4 | F5 | F6 | F7 | F8 | F9 | F10 | F11 | F12
  | Grave | Minus | Equal | LeftBracket | RightBracket | BackSlash
  | Semicolon | Apostrophe | Comma | Dot | Slash
  | LControl | RControl | LShift | RShift | LAlt | RAlt | Meta
deriving DecidableEq, Repr

/-- Source `Keyboard::transform_device_key`: converts a device keycode to the
corresponding `Key`; unhandled keycodes are converted to `Key::Unknown`
(the wildcard arm of the source match). -/
def transform_device_key (device_key : Keycode) : Key :=
  match device_key with
  | Keycode.Escape => Key.Esc
  | Keycode.Enter => Key.Enter
  | Keycode.Space => Key.Space
  | Keycode.Up => Key.Up
  | Keycode.Down => Key.Down
  | Keycode.Left => Key.Left
  | Keycode.Right => Key.Right
  | Keycode.Backspace => Key.Backspace
  | Keycode.CapsLock => Key.CapsLock
  | Keycode.Tab => Key.Tab
  | Keycode.Home => Key.Home
  | Keycode.End => Key.End
  | Keycode.PageUp => Key.PageUp
  | Keycode.PageDown => Key.PageDown
  | Keycode.Insert => Key.Insert
  | Keycode.Delete => Key.Delete
  | Keycode.A => Key.A
  | Keycode.B => Key.B
  | Keycode.C => Key.C
  | Keycode.D => Key.D
  | Keycode.E => Key.E
  | Keycode.F => Key.F
  | Keycode.G => Key.G
  | Keycode.H => Key.H
  | Keycode.I => Key.I
  | Keycode.J => Key.J
  | Keycode.K => Key.K
  | Keycode.L => Key.L
  | Keycode.M => Key.M
  | Keycode.N => Key.N
  | Keycode.O => Key.O
  | Keycode.P => Key.P
  | Keycode.Q => Key.Q
  | Keycode.R => Key.R
  | Keycode.S => Key.S
  | Keycode.T => Key.T
  | Keycode.U => Key.U
  | Keycode.V => Key.V
  | Keycode.W => Key.W
  | Keycode.X => Key.X
  | Keycode.Y => Key.Y
  | Keycode.Z => Key.Z
  | Keycode.Key0 => Key.Num0
  | Keycode.Key1 => Key.Num1
  | Keycode.Key2 => Key.Num2
  | Keycode.Key3 => Key.Num3
  | Keycode.Key4 => Key.Num4
  | Keycode.Key5 => Key.Num5
  | Keycode.Key6 => Key.Num6
  | Keycode.Key7 => Key.Num7
  | Keycode.Key8 => Key.Num8
  | Keycode.Key9 => Key.Num9
  | Keycode.F1 => Key.F1
  | Keycode.F2 => Key.F2
  | Keycode.F3 => Key.F3
  | Keycode.F4 => Key.F4
  | Keycode.F5 => Key.F5
  | Keycode.F6 => Key.F6
  | Keycode.F7 => Key.F7
  | Keycode.F8 => Key.F8
  | Keycode.F9 => Key.F9
  | Keycode.F10 => Key.F10
  | Keycode.F11 => Key.F11
  | Keycode.F12 => Key.F12
  | Keycode.Grave => Key.Grave
  | Keycode.Minus => Key.Minus
  | Keycode.Equal => Key.Equal
  | Keycode.LeftBracket => Key.LeftBracket
  | Keycode.RightBracket => Key.RightBracket
  | Keycode.BackSlash => Key.BackSlash
  | Keycode.Semicolon => Key.Semicolon
  | Keycode.Apostrophe => Key.Apostrophe
  | Keycode.Comma => Key.Comma
  | Keycode.Dot => Key.Dot
  | Keycode.Slash => Key.Slash
  | _ => Key.Unknown

/-- Source `Keyboard::process_pressed_event`: diffs two device samples, and for each
newly held keycode sends `Pressed(transform_device_key kc)` on the channel,
unless the transform yields `Key::Unknown`, in which case nothing is sent.
The returned list is the sequence of channel sends, in order. -/
def process_pressed_event (new_state last_state : List Keycode) : List KeyEvent :=
  (new_state.filter (fun x => decide (x ∉ last_state))).filterMap (fun keycode =>
    let key := transform_device_key keycode
    if key ≠ Key.Unknown then some (KeyEvent.Pressed key) else none)

/-- Source `Keyboard::process_released_event`: diffs two device samples, and for each
no-longer-held keycode sends `Released(transform_device_key kc)` on the channel,
unless the transform yields `Key::Unknown`, in which case nothing is sent. -/
def process_released_event (new_state last_state : List Keycode) : List KeyEvent :=
  (last_state.filter (fun x => decide (x ∉ new_state))).filterMap (fun keycode =>
    let key := transform_device_key keycode
    if key ≠ Key.Unknown then some (KeyEvent.Released key) else none)

/-! ## Correlation stage (the `acc_thread` retain loop of `Keyboard::new`) -/

/-- Source `KEY_EVENT_FOCUS_DELAY_MS`: the correlation window, in milliseconds. -/
def KEY_EVENT_FOCUS_DELAY_MS : Nat := 20

/-- A pending signal of the correlation stage: a key event tagged with its
arrival instant (an entry of `event_accumulator`). -/
structure PendingSignal where
  event : KeyEvent
  instant : Nat
deriving DecidableEq, Repr

/-- Outcome of the retain closure for one pending signal. -/
inductive SweepDecision where
  | dropStale
  | accept
  | keep
deriving DecidableEq, Repr

/-- The retain closure of the `acc_thread` loop in `Keyboard::new`, for one
pending signal, given the current instant `now` and `last_input_timestamp`:

1. if `now - instant > KEY_EVENT_FOCUS_DELAY_MS`, the signal is removed
   without being sent (`dropStale`);
2. otherwise, if `instant.checked_duration_since(last_input_timestamp)` or
   `last_input_timestamp.checked_duration_since(instant)` yields a duration
   `≤ KEY_EVENT_FOCUS_DELAY_MS`, the event is sent and removed (`accept`);
3. otherwise the signal is kept pending (`keep`). -/
def sweepOne (now last_input_timestamp : Nat) (p : PendingSignal) : SweepDecision :=
  if now - p.instant > KEY_EVENT_FOCUS_DELAY_MS then SweepDecision.dropStale
  else if last_input_timestamp ≤ p.instant ∧
      p.instant - last_input_timestamp ≤ KEY_EVENT_FOCUS_DELAY_MS then
    SweepDecision.accept
  else if p.instant ≤ last_input_timestamp ∧
      last_input_timestamp - p.instant ≤ KEY_EVENT_FOCUS_DELAY_MS then
    SweepDecision.accept
  else SweepDecision.keep

/-- One pass of `event_accumulator.retain(..)`: returns the retained pending
list together with the events sent to the public stream, in order. -/
def sweep (now last_input_timestamp : Nat) (pending : List PendingSignal) :
    List PendingSignal × List KeyEvent :=
  (pending.filter (fun p => sweepOne now last_input_timestamp p = SweepDecision.keep),
   (pending.filter (fun p => sweepOne now last_input_timestamp p = SweepDecision.accept)).map
     (fun p => p.event))

/-- The corroboration test of the retain closure, isolated: the absolute
difference between the signal's instant and `last_input_timestamp` is at most
the correlation window (evaluated in either temporal direction, as the two
`checked_duration_since` branches of the source). -/
def corroborated (last_input_timestamp instant : Nat) : Prop :=
  (last_input_timestamp ≤ instant ∧
    instant - last_input_timestamp ≤ KEY_EVENT_FOCUS_DELAY_MS) ∨
  (instant ≤ last_input_timestamp ∧
    last_input_timestamp - instant ≤ KEY_EVENT_FOCUS_DELAY_MS)

instance (l i : Nat) : Decidable (corroborated l i) := by
  unfold corroborated; infer_instance

/-! ## Per-frame consumption (`Keyboard` state and `consume_key_events`) -/

/-- The per-frame mutable state of `Keyboard`: the down-key map (`state`,
modelled as an association list from held `Key` to insertion stamp) and the
stamp counter `last_key_stamp`.  The threads and channels of the source are
modelled apart (the drained event list is a parameter of the consume step). -/
structure Keyboard where
  state : List (Key × Nat)
  last_key_stamp : Nat
deriving DecidableEq, Repr

/-- Source `HashMap::contains_key` on the down-key map. -/
def Keyboard.containsKey (m : List (Key × Nat)) (k : Key) : Bool :=
  m.any (fun e => e.1 = k)

/-- The first pass of `Keyboard::consume_key_events` (Pressed events): a key
not already in the down-map is inserted with the next stamp, the event is
appended to the batch and the stamp counter incremented; a Pressed event for
an already-down key is skipped. -/
def pressStep (acc : Keyboard × List KeyEvent) (event : KeyEvent) :
    Keyboard × List KeyEvent :=
  match event with
  | KeyEvent.Pressed key =>
    if Keyboard.containsKey acc.1.state key then acc
    else
      (⟨acc.1.state ++ [(key, acc.1.last_key_stamp)], acc.1.last_key_stamp + 1⟩,
       acc.2 ++ [KeyEvent.Pressed key])
  | KeyEvent.Released _ => acc

/-- The second pass of `Keyboard::consume_key_events` (Released events): a key
present in the down-map is removed and the event appended to the batch; a
Released event for a key not currently down is skipped. -/
def releaseStep (acc : Keyboard × List KeyEvent) (event : KeyEvent) :
    Keyboard × List KeyEvent :=
  match event with
  | KeyEvent.Released key =>
    if Keyboard.containsKey acc.1.state key then
      (⟨acc.1.state.filter (fun p => decide (p.1 ≠ key)), acc.1.last_key_stamp⟩,
       acc.2 ++ [KeyEvent.Released key])
    else acc
  | KeyEvent.Pressed _ => acc

/-- Source `Keyboard::consume_key_events`: clears the previous batch, drains `events`
from the receiver, applies all Pressed events in a first pass and then all
Released events in a second pass.  Returns the new keyboard state and the
batch (`last_key_events`). -/
def consume_key_events (kb : Keyboard) (events : List KeyEvent) :
    Keyboard × List KeyEvent :=
  events.foldl releaseStep (events.foldl pressStep (kb, []))

/-- Source `Keyboard::new`'s initial consumable state: empty down-map, stamp 0. -/
def Keyboard.init : Keyboard := ⟨[], 0⟩

/-- Keyboard states reachable from the initial state by consume steps. -/
inductive Keyboard.Reachable : Keyboard → Prop where
  | init : Keyboard.Reachable Keyboard.init
  | step (kb : Keyboard) (events : List KeyEvent) :
      Keyboard.Reachable kb → Keyboard.Reachable (consume_key_events kb events).1

/-- Source `Keyboard::get_keys_down`: collects the down-map entries, sorts them by
stamp (`sort_by` comparing the stamps; a stable sort, as Rust's `sort_by`),
and returns the keys. -/
def get_keys_down (kb : Keyboard) : List Key :=
  (List.insertionSort (fun a b : Key × Nat => a.2 ≤ b.2) kb.state).map Prod.fst

instance : IsTotal (Key × Nat) (fun a b : Key × Nat => a.2 ≤ b.2) :=
  ⟨fun a b => Nat.le_total a.2 b.2⟩

instance : IsTrans (Key × Nat) (fun a b : Key × Nat => a.2 ≤ b.2) :=
  ⟨fun _ _ _ h h' => Nat.le_trans h h'⟩

/-! ## Display surface (`src/terminal.rs`) -/

/-- The `Color` enum of `src/terminal.rs`. -/
inductive Color where
  | Black | White | Grey | DarkGrey | LightGrey
  | Red | Green | Blue | Cyan | Yellow | Magenta
  | Xterm (code : Nat)
deriving DecidableEq, Repr

/-- Source `Color::code`: the 8-bit indexed terminal color for each `Color`. -/
def Color.code (c : Color) : Nat :=
  match c with
  | Color.Black => 16
  | Color.White => 231
  | Color.Grey => 244
  | Color.DarkGrey => 238
  | Color.LightGrey => 250
  | Color.Red => 196
  | Color.Green => 46
  | Color.Blue => 21
  | Color.Cyan => 51
  | Color.Yellow => 226
  | Color.Magenta => 201
  | Color.Xterm code => code

/-- The `Style` enum of `src/terminal.rs`. -/
inductive Style where
  | Plain
  | Bold
deriving DecidableEq, Repr

/-- The crossterm attribute emitted for a style change (`style_impl`). -/
inductive Attribute where
  | NoBold
  | Bold
deriving DecidableEq, Repr

/-- Source `style_impl`: `Plain ↦ NoBold`, `Bold ↦ Bold`. -/
def style_impl (style : Style) : Attribute :=
  match style with
  | Style.Plain => Attribute.NoBold
  | Style.Bold => Attribute.Bold

/-- The `VisualElement` struct: one cell's full display state. -/
structure VisualElement where
  style : Style
  background : Color
  foreground : Color
  value : Char
deriving DecidableEq, Repr

/-- Source `VisualElement::new`: the default cell. -/
def VisualElement.new : VisualElement :=
  ⟨Style.Plain, Color.Black, Color.White, ' '⟩

/-- Rust `u16` multiplication (release-mode wrapping semantics): the source
computes `(dimension.0 * dimension.1) as usize` in `u16` arithmetic before
widening, so the product wraps modulo 2^16. -/
def u16mul (a b : Nat) : Nat := (a * b) % 65536

/-- The `Surface` struct: backing cell data, `(width, height)` dimension
(two `u16` values, so each is `< 65536`), and the default element. -/
structure Surface where
  data : List VisualElement
  dimension : Nat × Nat
  default_element : VisualElement
deriving DecidableEq, Repr

/-- Source `Surface::new`: allocates the backing data by resizing an empty vector to
`(dimension.0 * dimension.1) as usize` copies of the default element; the
product is computed in `u16` arithmetic. -/
def Surface.new (dimension : Nat × Nat) (default_element : VisualElement) : Surface :=
  ⟨List.replicate (u16mul dimension.1 dimension.2) default_element,
   dimension, default_element⟩

/-- Source `Surface::fill`: assigns `elem` to every cell in place. -/
def Surface.fill (s : Surface) (elem : VisualElement) : Surface :=
  ⟨s.data.map (fun _ => elem), s.dimension, s.default_element⟩

/-- Source `Surface::clear`: fills with the default element. -/
def Surface.clear (s : Surface) : Surface :=
  s.fill s.default_element

/-- Source `Surface::set_default_element`. -/
def Surface.set_default_element (s : Surface) (elem : VisualElement) : Surface :=
  ⟨s.data, s.dimension, elem⟩

/-- Source `Surface::contains`: `pos.0 < width && pos.1 < height`. -/
def Surface.containsPos (s : Surface) (pos : Nat × Nat) : Bool :=
  decide (pos.1 < s.dimension.1) && decide (pos.2 < s.dimension.2)

/-- The row-major index `pos.1 * width + pos.0` computed by `Surface::elem` /
`Surface::elem_mut`, in `u16` arithmetic (wrapping). -/
def Surface.index (s : Surface) (pos : Nat × Nat) : Nat :=
  (pos.2 * s.dimension.1 + pos.1) % 65536

/-- Source `Surface::elem_mut`, as the index it hands out: `some` of the row-major
index when the position is contained, `none` (no reference) otherwise. -/
def Surface.elem_mut_idx (s : Surface) (pos : Nat × Nat) : Option Nat :=
  if s.containsPos pos then some (s.index pos) else none

/-- Source `Pencil::draw_element` (`src/drawing.rs`): writes a full cell through
`elem_mut`; when `elem_mut` yields no reference the write is skipped.  The
indexing `self.data[idx]` inside `elem_mut` panics when the index is out of
range of the backing data, modelled as `none`. -/
def Surface.write_element (s : Surface) (pos : Nat × Nat) (v : VisualElement) :
    Option Surface :=
  if s.containsPos pos then
    if s.index pos < s.data.length then
      some ⟨s.data.set (s.index pos) v, s.dimension, s.default_element⟩
    else none
  else some s

/-- Source `Window::clear`: re-queries the live terminal dimension; on a dimension
change the surface is rebuilt wholesale by `Surface::new`, otherwise every
cell is reset to the default element in place. -/
def Window.clearSurface (s : Surface) (current_size : Nat × Nat) : Surface :=
  if current_size.1 ≠ s.dimension.1 ∨ current_size.2 ≠ s.dimension.2 then
    Surface.new current_size s.default_element
  else
    s.fill s.default_element

/-- Surfaces reachable through the public surface operations (construction,
fill, clear, per-frame `Window::clear`, default-element change, and
non-panicking cell writes). -/
inductive Surface.Reachable : Surface → Prop where
  | new (dimension : Nat × Nat) (e : VisualElement) :
      Surface.Reachable (Surface.new dimension e)
  | fill (s : Surface) (e : VisualElement) :
      Surface.Reachable s → Surface.Reachable (s.fill e)
  | clear (s : Surface) :
      Surface.Reachable s → Surface.Reachable s.clear
  | winClear (s : Surface) (current_size : Nat × Nat) :
      Surface.Reachable s → Surface.Reachable (Window.clearSurface s current_size)
  | setDefault (s : Surface) (e : VisualElement) :
      Surface.Reachable s → Surface.Reachable (s.set_default_element e)
  | write (s s' : Surface) (pos : Nat × Nat) (v : VisualElement) :
      Surface.Reachable s → s.write_element pos v = some s' → Surface.Reachable s'

/-! ## Rendering diff pass (`Window::update`) -/

/-- The terminal control commands queued by `Window::update` (color payloads
are the 8-bit codes put on the wire by `ct::style::Color::AnsiValue`). -/
inductive Command where
  | SetAttribute (a : Attribute)
  | SetForegroundColor (code : Nat)
  | SetBackgroundColor (code : Nat)
  | Output (value : Char)
  | MoveTo (x y : Nat)
deriving DecidableEq, Repr

/-- One iteration of the diff loop in `Window::update`: given the running
`(last_style, last_foreground, last_background)` state, emits a style command
iff the style differs, then a foreground command iff the foreground differs,
then a background command iff the background differs, then always the cell's
character; updates the running state. -/
def diffStep (acc : (Style × Color × Color) × List Command) (element : VisualElement) :
    (Style × Color × Color) × List Command :=
  let last_style := acc.1.1
  let last_foreground := acc.1.2.1
  let last_background := acc.1.2.2
  let styleCmds : List Command :=
    if last_style = element.style then []
    else [Command.SetAttribute (style_impl element.style)]
  let fgCmds : List Command :=
    if last_foreground = element.foreground then []
    else [Command.SetForegroundColor element.foreground.code]
  let bgCmds : List Command :=
    if last_background = element.background then []
    else [Command.SetBackgroundColor element.background.code]
  ((element.style, element.foreground, element.background),
   acc.2 ++ styleCmds ++ fgCmds ++ bgCmds ++ [Command.Output element.value])

/-- The diff loop of `Window::update` over the whole grid in row-major order,
with the running comparison state initialised from the default element. -/
def diffPass (default_element : VisualElement) (cells : List VisualElement) :
    List Command :=
  (cells.foldl diffStep
    ((default_element.style, default_element.foreground, default_element.background),
     [])).2

/-- Source `Window::clean_state`: resets weight, colors (to the default element's)
and cursor position. -/
def clean_state (default_element : VisualElement) : List Command :=
  [Command.SetAttribute Attribute.NoBold,
   Command.SetForegroundColor default_element.foreground.code,
   Command.SetBackgroundColor default_element.background.code,
   Command.MoveTo 0 0]

/-- Source `Window::update`: clean state, diff pass over the grid, clean state again
(the single flush at the end is not part of the command list). -/
def Window.update (s : Surface) : List Command :=
  clean_state s.default_element ++ diffPass s.default_element s.data ++
    clean_state s.default_element

/-- Counts the foreground-change commands in a command list. -/
def countFg : List Command → Nat
  | [] => 0
  | c :: rest =>
    (match c with | Command.SetForegroundColor _ => 1 | _ => 0) + countFg rest

/-- Counts the background-change commands in a command list. -/
def countBg : List Command → Nat
  | [] => 0
  | c :: rest =>
    (match c with | Command.SetBackgroundColor _ => 1 | _ => 0) + countBg rest

/-- Counts the style-change commands in a command list. -/
def countStyle : List Command → Nat
  | [] => 0
  | c :: rest =>
    (match c with | Command.SetAttribute _ => 1 | _ => 0) + countStyle rest

/-- Counts the character-output commands in a command list. -/
def countOut : List Command → Nat
  | [] => 0
  | c :: rest =>
    (match c with | Command.Output _ => 1 | _ => 0) + countOut rest

/-- Specification-side count: the number of cells whose foreground differs
from the immediately preceding cell in the pass (the first cell compared
against `prev`). -/
def fgChanges (prev : Color) : List VisualElement → Nat
  | [] => 0
  | e :: rest => (if prev = e.foreground then 0 else 1) + fgChanges e.foreground rest

/-- Specification-side count: background changes against the preceding cell. -/
def bgChanges (prev : Color) : List VisualElement → Nat
  | [] => 0
  | e :: rest => (if prev = e.background then 0 else 1) + bgChanges e.background rest

/-- Specification-side count: style changes against the preceding cell. -/
def styleChanges (prev : Style) : List VisualElement → Nat
  | [] => 0
  | e :: rest => (if prev = e.style then 0 else 1) + styleChanges e.style rest

/-! ## Frame loop (`App::run`, `src/app.rs`) -/

/-- The outcome of one user-callback invocation: either it panics (unwinds),
or it returns, leaving the shared `running` flag at the given value. -/
inductive CbResult where
  | panics
  | returns (running : Bool)
deriving DecidableEq, Repr

/-- The externally observable actions of `App::run`, in program order. -/
inductive AppAction where
  | openW
  | checkRunning
  | clearW
  | consumeK
  | callbackA
  | drawW
  | closeW
  | promptAck
deriving DecidableEq, Repr

/-- The `while self.state.is_running()` loop of `App::run`, fuel-indexed.
`cb step` is the outcome of the callback's invocation at step counter `step`.
Returns `(loop actions, number of callback invocations, whether a panic
escaped the loop)`; `none` when the fuel is exhausted before the loop ends. -/
def appLoop (cb : Nat → CbResult) : Nat → Nat → Bool → Option (List AppAction × Nat × Bool)
  | 0, _, _ => none
  | _ + 1, _, false => some ([AppAction.checkRunning], 0, false)
  | fuel + 1, step, true =>
    match cb step with
    | CbResult.panics =>
      some ([AppAction.checkRunning, AppAction.clearW, AppAction.consumeK, AppAction.callbackA],
        1, true)
    | CbResult.returns r =>
      match appLoop cb fuel (step + 1) r with
      | none => none
      | some (tr, count, p) =>
        some (AppAction.checkRunning :: AppAction.clearW :: AppAction.consumeK ::
          AppAction.callbackA :: AppAction.drawW :: tr, count + 1, p)

/-- Source `App::run`: opens the window and runs the loop inside `catch_unwind`.
On normal loop exit the window is closed inside the closure; when a panic
unwound out of the callback, the user is prompted for acknowledgment
(`[Press 'enter' to recover the terminal]`, then a blocking read of one
line) and only then is the window closed.  In both cases `run` itself
returns normally.  The result is `(action trace, number of callback
invocations, whether `run` re-raises the panic)`. -/
def appRun (cb : Nat → CbResult) (fuel : Nat) : Option (List AppAction × Nat × Bool) :=
  match appLoop cb fuel 0 true with
  | none => none
  | some (tr, count, panicked) =>
    if panicked then
      some (AppAction.openW :: tr ++ [AppAction.promptAck, AppAction.closeW], count, false)
    else
      some (AppAction.openW :: tr ++ [AppAction.closeW], count, false)

/-- The expected loop trace for `n` full iterations followed by the final
(negative) check of the loop condition. -/
def loopTrace : Nat → List AppAction
  | 0 => [AppAction.checkRunning]
  | n + 1 => AppAction.checkRunning :: AppAction.clearW :: AppAction.consumeK ::
      AppAction.callbackA :: AppAction.drawW :: loopTrace n

/-! ## Claim C1 -/

/-- C1 counterexample: the keycode `LControl` has no mapping to a named `Key`
(`transform_device_key` yields `Key::Unknown`), and yet a press transition for
it is NOT forwarded tagged `Key::Unknown`: the observers send nothing at all
for it, contrary to the claim that no key transition is dropped merely because
its keycode is unmapped. -/
theorem c1_counterexample :
    transform_device_key Keycode.LControl = Key.Unknown ∧
    process_pressed_event [Keycode.LControl] [] = [] ∧
    process_released_event [] [Keycode.LControl] = [] := by
  decide

/-- C1 (amended): for every device-observed key transition, the observers
forward `Pressed`/`Released` of the mapped key exactly when the keycode maps
to a named key; transitions whose keycode has no mapping (transform yields
`Key::Unknown`) are discarded by the observers, and in particular no event
tagged `Key::Unknown` is ever forwarded to the correlation stage. -/
theorem c1_amended (new_state last_state : List Keycode) :
    (∀ k : Key, KeyEvent.Pressed k ∈ process_pressed_event new_state last_state ↔
      (k ≠ Key.Unknown ∧
        ∃ kc, (kc ∈ new_state ∧ kc ∉ last_state) ∧ transform_device_key kc = k)) ∧
    (∀ k : Key, KeyEvent.Released k ∈ process_released_event new_state last_state ↔
      (k ≠ Key.Unknown ∧
        ∃ kc, (kc ∈ last_state ∧ kc ∉ new_state) ∧ transform_device_key kc = k)) ∧
    KeyEvent.Pressed Key.Unknown ∉ process_pressed_event new_state last_state ∧
    KeyEvent.Released Key.Unknown ∉ process_released_event new_state last_state := by
  have hp : ∀ k : Key, KeyEvent.Pressed k ∈ process_pressed_event new_state last_state ↔
      (k ≠ Key.Unknown ∧
        ∃ kc, (kc ∈ new_state ∧ kc ∉ last_state) ∧ transform_device_key kc = k) := by
    intro k
    simp only [process_pressed_event, List.mem_filterMap, List.mem_filter,
      decide_eq_true_eq]
    constructor
    · rintro ⟨kc, hmem, hf⟩
      by_cases hu : transform_device_key kc = Key.Unknown
      · simp [hu] at hf
      · simp only [hu, ne_eq, not_false_eq_true, if_true, Option.some.injEq,
          KeyEvent.Pressed.injEq] at hf
        exact ⟨hf ▸ hu, kc, hmem, hf⟩
    · rintro ⟨hk, kc, hmem, hkc⟩
      refine ⟨kc, hmem, ?_⟩
      simp [hkc, hk]
  have hr : ∀ k : Key, KeyEvent.Released k ∈ process_released_event new_state last_state ↔
      (k ≠ Key.Unknown ∧
        ∃ kc, (kc ∈ last_state ∧ kc ∉ new_state) ∧ transform_device_key kc = k) := by
    intro k
    simp only [process_released_event, List.mem_filterMap, List.mem_filter,
      decide_eq_true_eq]
    constructor
    · rintro ⟨kc, hmem, hf⟩
      by_cases hu : transform_device_key kc = Key.Unknown
      · simp [hu] at hf
      · simp only [hu, ne_eq, not_false_eq_true, if_true, Option.some.injEq,
          KeyEvent.Released.injEq] at hf
        exact ⟨hf ▸ hu, kc, hmem, hf⟩
    · rintro ⟨hk, kc, hmem, hkc⟩
      refine ⟨kc, hmem, ?_⟩
      simp [hkc, hk]
  refine ⟨hp, hr, ?_, ?_⟩
  · intro hmem
    exact ((hp Key.Unknown).1 hmem).1 rfl
  · intro hmem
    exact ((hr Key.Unknown).1 hmem).1 rfl

/-! ## Claim C2 -/

/-- C2 counterexample: a pending signal with arrival instant 0 whose absolute
difference with `last_focus_instant = 20` is exactly 20 ms (≤ the window, so
the claim requires it to be accepted and forwarded) is nevertheless removed
without being forwarded by a sweep at `now = 21`, because the staleness check
(`now - instant > 20`) runs first and discards it regardless of corroboration. -/
theorem c2_counterexample :
    corroborated 20 0 ∧
    sweepOne 21 20 ⟨KeyEvent.Pressed Key.A, 0⟩ = SweepDecision.dropStale ∧
    (sweep 21 20 [⟨KeyEvent.Pressed Key.A, 0⟩]).2 = [] ∧
    (sweep 21 20 [⟨KeyEvent.Pressed Key.A, 0⟩]).1 = [] := by
  decide

/-- C2 (amended): in one sweep of the correlation stage at instant `now`, a
pending signal is accepted (forwarded and removed) exactly when it has not
aged more than 20 ms (`now - instant ≤ 20`) AND the absolute difference
between its arrival instant and `last_focus_instant` is at most 20 ms in
either temporal direction; a pending signal that has aged more than 20 ms is
removed without being forwarded, regardless of corroboration; accepted and
expired signals leave the pending list; and a device-observed press with no
focus confirmation within 20 ms on either side never reaches the consumer. -/
theorem c2_amended (now last_input_timestamp : Nat) (p : PendingSignal)
    (pending : List PendingSignal) :
    (sweepOne now last_input_timestamp p = SweepDecision.accept ↔
      (now - p.instant ≤ KEY_EVENT_FOCUS_DELAY_MS ∧
        corroborated last_input_timestamp p.instant)) ∧
    (sweepOne now last_input_timestamp p = SweepDecision.dropStale ↔
      now - p.instant > KEY_EVENT_FOCUS_DELAY_MS) ∧
    (sweepOne now last_input_timestamp p ≠ SweepDecision.keep →
      p ∉ (sweep now last_input_timestamp pending).1) ∧
    (∀ e : KeyEvent,
      (∀ q ∈ pending, q.event = e → ¬ corroborated last_input_timestamp q.instant) →
      e ∉ (sweep now last_input_timestamp pending).2) := by
  have haccept : ∀ q : PendingSignal,
      sweepOne now last_input_timestamp q = SweepDecision.accept ↔
      (now - q.instant ≤ KEY_EVENT_FOCUS_DELAY_MS ∧
        corroborated last_input_timestamp q.instant) := by
    intro q
    unfold sweepOne corroborated
    split_ifs with h1 h2 h3
    · simp only [reduceCtorEq, false_iff, not_and]
      intro hle
      omega
    · simp only [true_iff]
      exact ⟨by omega, Or.inl h2⟩
    · simp only [true_iff]
      exact ⟨by omega, Or.inr h3⟩
    · simp only [reduceCtorEq, false_iff, not_and]
      intro _
      rintro (h | h)
      · exact h2 h
      · exact h3 h
  refine ⟨haccept p, ?_, ?_, ?_⟩
  · unfold sweepOne
    split_ifs with h1 h2 h3
    · exact iff_of_true rfl h1
    · exact iff_of_false (fun h => h) h1
    · exact iff_of_false (fun h => h) h1
    · exact iff_of_false (fun h => h) h1
  · intro hne hmem
    have := List.of_mem_filter hmem
    simp only [decide_eq_true_eq] at this
    exact hne this
  · intro e hnone hmem
    simp only [sweep, List.mem_map, List.mem_filter, decide_eq_true_eq] at hmem
    obtain ⟨q, ⟨hq, hacc⟩, hqe⟩ := hmem
    exact hnone q hq hqe ((haccept q).1 hacc).2

/-! ## Claim C5 -/

/-- C5 counterexample: construction with dimension `(256, 256)` computes the
data length `(width * height) as usize` in `u16` arithmetic, which wraps to 0,
so the backing data length is 0, not `width*height = 65536`. -/
theorem c5_counterexample :
    (Surface.new (256, 256) VisualElement.new).data.length = 0 ∧
    (Surface.new (256, 256) VisualElement.new).data.length ≠ 256 * 256 := by
  decide

/-- C5 (amended): for every grid reachable through the public surface
operations, the backing data length equals `(width * height) % 2^16` at all
times (the product is evaluated in `u16` arithmetic); in particular it equals
`width*height` whenever `width*height < 2^16`.  On a dimension change the
buffer is rebuilt wholesale: every cell of the new buffer is the default
element, with no residual content. -/
theorem c5_amended (s : Surface) (h : Surface.Reachable s) :
    s.data.length = (s.dimension.1 * s.dimension.2) % 65536 ∧
    (s.dimension.1 * s.dimension.2 < 65536 →
      s.data.length = s.dimension.1 * s.dimension.2) ∧
    (∀ current_size : Nat × Nat, current_size ≠ s.dimension →
      ∀ e ∈ (Window.clearSurface s current_size).data, e = s.default_element) := by
  have hlen : ∀ t : Surface, Surface.Reachable t →
      t.data.length = (t.dimension.1 * t.dimension.2) % 65536 := by
    intro t ht
    induction ht with
    | new dimension e =>
      simp [Surface.new, u16mul]
    | fill s e hr ih =>
      simpa [Surface.fill] using ih
    | clear s hr ih =>
      simpa [Surface.clear, Surface.fill] using ih
    | winClear s current_size hr ih =>
      unfold Window.clearSurface
      split_ifs with hcond
      · simp [Surface.new, u16mul]
      · simpa [Surface.fill] using ih
    | setDefault s e hr ih =>
      simpa [Surface.set_default_element] using ih
    | write s s' pos v hr heq ih =>
      unfold Surface.write_element at heq
      split_ifs at heq with h1 h2 <;>
        first
          | exact Option.noConfusion heq
          | (obtain rfl := Option.some.inj heq
             first
               | exact ih
               | simpa using ih)
  refine ⟨hlen s h, ?_, ?_⟩
  · intro hsmall
    rw [hlen s h]
    exact Nat.mod_eq_of_lt hsmall
  · intro current_size hne e hmem
    unfold Window.clearSurface at hmem
    rw [if_pos] at hmem
    · exact List.eq_of_mem_replicate hmem
    · by_contra hcon
      push_neg at hcon
      exact hne (Prod.ext_iff.mpr ⟨hcon.1, hcon.2⟩)

/-- C5 witness: the reachable surface `Surface.new (3, 2) VisualElement.new`
satisfies the amended invariant. -/
theorem c5_witness :
    (Surface.new (3, 2) VisualElement.new).data.length =
      ((Surface.new (3, 2) VisualElement.new).dimension.1 *
        (Surface.new (3, 2) VisualElement.new).dimension.2) % 65536 ∧
    ((Surface.new (3, 2) VisualElement.new).dimension.1 *
        (Surface.new (3, 2) VisualElement.new).dimension.2 < 65536 →
      (Surface.new (3, 2) VisualElement.new).data.length =
        (Surface.new (3, 2) VisualElement.new).dimension.1 *
          (Surface.new (3, 2) VisualElement.new).dimension.2) ∧
    (∀ current_size : Nat × Nat,
      current_size ≠ (Surface.new (3, 2) VisualElement.new).dimension →
      ∀ e ∈ (Window.clearSurface (Surface.new (3, 2) VisualElement.new)
          current_size).data,
        e = (Surface.new (3, 2) VisualElement.new).default_element) :=
  c5_amended (Surface.new (3, 2) VisualElement.new)
    (Surface.Reachable.new (3, 2) VisualElement.new)

/-! ## Claim C8 -/

/-- C8: a cell write at a position with `x ≥ width` or `y ≥ height` is a
silent no-op (no panic, the surface is returned unchanged) and the mutable
cell accessor signals "not writable" by returning no reference; for in-bounds
positions (on a grid satisfying the backing-length invariant, with
`width*height` within `u16` range) the accessor returns the row-major index
`y*width + x` and the write replaces exactly that cell. -/
theorem c8_bounds_checked_write (s : Surface) (pos : Nat × Nat) (v : VisualElement) :
    (s.dimension.1 ≤ pos.1 ∨ s.dimension.2 ≤ pos.2 →
      s.write_element pos v = some s ∧ s.elem_mut_idx pos = none) ∧
    (s.data.length = s.dimension.1 * s.dimension.2 →
      s.dimension.1 * s.dimension.2 ≤ 65536 →
      pos.1 < s.dimension.1 → pos.2 < s.dimension.2 →
      s.elem_mut_idx pos = some (pos.2 * s.dimension.1 + pos.1) ∧
      s.write_element pos v =
        some ⟨s.data.set (pos.2 * s.dimension.1 + pos.1) v, s.dimension,
          s.default_element⟩) := by
  constructor
  · intro hoob
    have hc : s.containsPos pos = false := by
      unfold Surface.containsPos
      rcases hoob with h | h
      · simp [Nat.not_lt.mpr h]
      · simp [Nat.not_lt.mpr h]
    constructor
    · unfold Surface.write_element
      rw [hc]
      simp
    · unfold Surface.elem_mut_idx
      rw [hc]
      simp
  · intro hlen hrange hx hy
    have hc : s.containsPos pos = true := by
      unfold Surface.containsPos
      simp [hx, hy]
    have hlt : pos.2 * s.dimension.1 + pos.1 < s.dimension.1 * s.dimension.2 := by
      calc pos.2 * s.dimension.1 + pos.1
          < pos.2 * s.dimension.1 + s.dimension.1 := by omega
        _ = (pos.2 + 1) * s.dimension.1 := by ring
        _ ≤ s.dimension.2 * s.dimension.1 := Nat.mul_le_mul_right _ (by omega)
        _ = s.dimension.1 * s.dimension.2 := Nat.mul_comm _ _
    have hmod : s.index pos = pos.2 * s.dimension.1 + pos.1 := by
      unfold Surface.index
      exact Nat.mod_eq_of_lt (lt_of_lt_of_le hlt hrange)
    constructor
    · unfold Surface.elem_mut_idx
      rw [hc, hmod]
      simp
    · unfold Surface.write_element
      rw [hc, hmod]
      simp only [if_true]
      rw [if_pos (by rw [hlen]; exact hlt)]

/-- C8 witness: on the 3×2 surface, the write at the out-of-bounds position
`(5, 0)` is a no-op with no reference handed out, and the write at the
in-bounds position `(1, 1)` goes to row-major index `1*3 + 1 = 4`. -/
theorem c8_bounds_checked_write_witness :
    ((Surface.new (3, 2) VisualElement.new).write_element (5, 0) VisualElement.new =
        some (Surface.new (3, 2) VisualElement.new) ∧
      (Surface.new (3, 2) VisualElement.new).elem_mut_idx (5, 0) = none) ∧
    ((Surface.new (3, 2) VisualElement.new).elem_mut_idx (1, 1) = some 4 ∧
      (Surface.new (3, 2) VisualElement.new).write_element (1, 1) VisualElement.new =
        some ⟨(Surface.new (3, 2) VisualElement.new).data.set 4 VisualElement.new,
          (3, 2), VisualElement.new⟩) :=
  ⟨(c8_bounds_checked_write (Surface.new (3, 2) VisualElement.new) (5, 0)
      VisualElement.new).1 (by decide),
   (c8_bounds_checked_write (Surface.new (3, 2) VisualElement.new) (1, 1)
      VisualElement.new).2 (by decide) (by decide) (by decide) (by decide)⟩

/-- C2 witness: at `now = 5`, `last_focus = 0`, the signal that arrived at
instant 3 is accepted (hence not kept pending), and an event whose only
pending entry arrived at instant 100 (uncorroborated) is not forwarded. -/
theorem c2_witness :
    (sweepOne 5 0 ⟨KeyEvent.Pressed Key.A, 3⟩ ≠ SweepDecision.keep ∧
      (⟨KeyEvent.Pressed Key.A, 3⟩ : PendingSignal) ∉
        (sweep 5 0 [⟨KeyEvent.Pressed Key.A, 3⟩]).1) ∧
    ((∀ q ∈ ([⟨KeyEvent.Pressed Key.A, 100⟩] : List PendingSignal),
        q.event = KeyEvent.Pressed Key.B → ¬ corroborated 0 q.instant) ∧
      KeyEvent.Pressed Key.B ∉ (sweep 5 0 [⟨KeyEvent.Pressed Key.A, 100⟩]).2) :=
  ⟨⟨by decide,
    (c2_amended 5 0 ⟨KeyEvent.Pressed Key.A, 3⟩ [⟨KeyEvent.Pressed Key.A, 3⟩]).2.2.1
      (by decide)⟩,
   ⟨by decide,
    (c2_amended 5 0 ⟨KeyEvent.Pressed Key.A, 3⟩ [⟨KeyEvent.Pressed Key.A, 100⟩]).2.2.2
      (KeyEvent.Pressed Key.B) (by decide)⟩⟩

/-! ## Claim C6 -/

/-- Recursive form of the diff loop of `Window::update`, used to reason about
the fold. -/
def diffEmit (st : Style × Color × Color) : List VisualElement → List Command
  | [] => []
  | e :: rest =>
    (if st.1 = e.style then [] else [Command.SetAttribute (style_impl e.style)]) ++
    (if st.2.1 = e.foreground then []
      else [Command.SetForegroundColor e.foreground.code]) ++
    (if st.2.2 = e.background then []
      else [Command.SetBackgroundColor e.background.code]) ++
    Command.Output e.value :: diffEmit (e.style, e.foreground, e.background) rest

theorem diff_foldl_eq_emit (cells : List VisualElement)
    (st : Style × Color × Color) (acc : List Command) :
    (cells.foldl diffStep (st, acc)).2 = acc ++ diffEmit st cells := by
  induction cells generalizing st acc with
  | nil => simp [diffEmit]
  | cons e rest ih =>
    obtain ⟨s0, f0, b0⟩ := st
    simp only [List.foldl_cons, diffStep, diffEmit]
    rw [ih]
    simp [List.append_assoc]

theorem countFg_append (l1 l2 : List Command) :
    countFg (l1 ++ l2) = countFg l1 + countFg l2 := by
  induction l1 with
  | nil => simp [countFg]
  | cons c rest ih => simp [countFg, ih, Nat.add_assoc]

theorem countBg_append (l1 l2 : List Command) :
    countBg (l1 ++ l2) = countBg l1 + countBg l2 := by
  induction l1 with
  | nil => simp [countBg]
  | cons c rest ih => simp [countBg, ih, Nat.add_assoc]

theorem countStyle_append (l1 l2 : List Command) :
    countStyle (l1 ++ l2) = countStyle l1 + countStyle l2 := by
  induction l1 with
  | nil => simp [countStyle]
  | cons c rest ih => simp [countStyle, ih, Nat.add_assoc]

theorem countOut_append (l1 l2 : List Command) :
    countOut (l1 ++ l2) = countOut l1 + countOut l2 := by
  induction l1 with
  | nil => simp [countOut]
  | cons c rest ih => simp [countOut, ih, Nat.add_assoc]

theorem countFg_diffEmit (cells : List VisualElement) (st : Style × Color × Color) :
    countFg (diffEmit st cells) = fgChanges st.2.1 cells := by
  induction cells generalizing st with
  | nil => rfl
  | cons e rest ih =>
    obtain ⟨s0, f0, b0⟩ := st
    simp only [diffEmit, countFg_append, fgChanges]
    have hrec := ih (e.style, e.foreground, e.background)
    split_ifs <;>
      simp [countFg, hrec, Nat.add_comm, Nat.add_assoc, Nat.add_left_comm]

theorem countBg_diffEmit (cells : List VisualElement) (st : Style × Color × Color) :
    countBg (diffEmit st cells) = bgChanges st.2.2 cells := by
  induction cells generalizing st with
  | nil => rfl
  | cons e rest ih =>
    obtain ⟨s0, f0, b0⟩ := st
    simp only [diffEmit, countBg_append, bgChanges]
    have hrec := ih (e.style, e.foreground, e.background)
    split_ifs <;>
      simp [countBg, hrec, Nat.add_comm, Nat.add_assoc, Nat.add_left_comm]

theorem countStyle_diffEmit (cells : List VisualElement) (st : Style × Color × Color) :
    countStyle (diffEmit st cells) = styleChanges st.1 cells := by
  induction cells generalizing st with
  | nil => rfl
  | cons e rest ih =>
    obtain ⟨s0, f0, b0⟩ := st
    simp only [diffEmit, countStyle_append, styleChanges]
    have hrec := ih (e.style, e.foreground, e.background)
    split_ifs <;>
      simp [countStyle, hrec, Nat.add_comm, Nat.add_assoc, Nat.add_left_comm]

theorem countOut_diffEmit (cells : List VisualElement) (st : Style × Color × Color) :
    countOut (diffEmit st cells) = cells.length := by
  induction cells generalizing st with
  | nil => rfl
  | cons e rest ih =>
    obtain ⟨s0, f0, b0⟩ := st
    simp only [diffEmit, countOut_append]
    have hrec := ih (e.style, e.foreground, e.background)
    split_ifs <;>
      simp [countOut, hrec, Nat.add_comm, Nat.add_assoc, Nat.add_left_comm]

theorem fgChanges_replicate_self (k : Nat) (e : VisualElement) :
    fgChanges e.foreground (List.replicate k e) = 0 := by
  induction k with
  | zero => simp [fgChanges]
  | succ n ih => simp [List.replicate_succ, fgChanges, ih]

theorem fgChanges_skip_replicate (n : Nat) (d : VisualElement)
    (rest : List VisualElement) :
    fgChanges d.foreground (List.replicate n d ++ rest) =
      fgChanges d.foreground rest := by
  induction n with
  | zero => simp
  | succ k ih => simp [List.replicate_succ, fgChanges, ih]

theorem diffPass_eq_emit (d : VisualElement) (cells : List VisualElement) :
    diffPass d cells = diffEmit (d.style, d.foreground, d.background) cells := by
  unfold diffPass
  rw [diff_foldl_eq_emit]
  simp

/-- C6: in one diff pass a foreground (resp. background, style) command is
emitted for a cell exactly when that attribute differs from the immediately
preceding cell in the pass, the first cell being compared against the default
element's attributes (captured by the change-count equalities, which hold for
every grid content); the character of every cell is always emitted; a full
`Window::update` adds exactly one foreground reset on each side of the pass;
and a row of `n` default cells with one differently-colored interior cell
emits exactly 2 foreground-change commands, independent of the row length —
in particular the row of 80 default cells with a red cell at index 40. -/
theorem c6_diff_pass_emission :
    (∀ (d : VisualElement) (cells : List VisualElement),
      countFg (diffPass d cells) = fgChanges d.foreground cells ∧
      countBg (diffPass d cells) = bgChanges d.background cells ∧
      countStyle (diffPass d cells) = styleChanges d.style cells ∧
      countOut (diffPass d cells) = cells.length) ∧
    (∀ s : Surface,
      countFg (Window.update s) =
        2 + fgChanges s.default_element.foreground s.data) ∧
    (∀ (d c : VisualElement) (n m : Nat), c.foreground ≠ d.foreground →
      countFg (diffPass d
        (List.replicate n d ++ c :: List.replicate (m + 1) d)) = 2) ∧
    countFg (diffPass VisualElement.new
      (List.replicate 40 VisualElement.new ++
        ⟨Style.Plain, Color.Black, Color.Red, ' '⟩ ::
          List.replicate 39 VisualElement.new)) = 2 := by
  have hpar : ∀ (d c : VisualElement) (n m : Nat), c.foreground ≠ d.foreground →
      countFg (diffPass d
        (List.replicate n d ++ c :: List.replicate (m + 1) d)) = 2 := by
    intro d c n m hne
    rw [diffPass_eq_emit, countFg_diffEmit]
    show fgChanges d.foreground _ = 2
    rw [fgChanges_skip_replicate]
    have h1 : d.foreground ≠ c.foreground := fun h => hne h.symm
    simp [fgChanges, List.replicate_succ, fgChanges_replicate_self, h1, hne]
  refine ⟨?_, ?_, hpar, hpar VisualElement.new
    ⟨Style.Plain, Color.Black, Color.Red, ' '⟩ 40 38 (by decide)⟩
  · intro d cells
    rw [diffPass_eq_emit]
    exact ⟨countFg_diffEmit cells _, countBg_diffEmit cells _,
      countStyle_diffEmit cells _, countOut_diffEmit cells _⟩
  · intro s
    unfold Window.update
    rw [countFg_append, countFg_append, diffPass_eq_emit, countFg_diffEmit]
    simp [clean_state, countFg]
    omega

/-- C6 witness: a 4-cell row (2 defaults, one red-foreground cell, 1 default)
emits exactly 2 foreground-change commands. -/
theorem c6_witness :
    (VisualElement.mk Style.Plain Color.Black Color.Red ' ').foreground ≠
      VisualElement.new.foreground ∧
    countFg (diffPass VisualElement.new
      (List.replicate 2 VisualElement.new ++
        (⟨Style.Plain, Color.Black, Color.Red, ' '⟩ : VisualElement) ::
          List.replicate 1 VisualElement.new)) = 2 :=
  ⟨by decide,
   c6_diff_pass_emission.2.2.1 VisualElement.new
     ⟨Style.Plain, Color.Black, Color.Red, ' '⟩ 2 0 (by decide)⟩

/-! ## Keyboard pass lemmas (for the consume step) -/

/-- Whether an event is a Pressed event. -/
def KeyEvent.is_press : KeyEvent → Bool
  | KeyEvent.Pressed _ => true
  | KeyEvent.Released _ => false

/-- Whether an event is a Released event. -/
def KeyEvent.is_release : KeyEvent → Bool
  | KeyEvent.Pressed _ => false
  | KeyEvent.Released _ => true

theorem containsKey_nil (k : Key) : Keyboard.containsKey [] k = false := rfl

theorem containsKey_cons (a : Key × Nat) (m : List (Key × Nat)) (k : Key) :
    Keyboard.containsKey (a :: m) k =
      (decide (a.1 = k) || Keyboard.containsKey m k) := by
  simp [Keyboard.containsKey]

theorem containsKey_append_single (m : List (Key × Nat)) (k0 : Key) (st : Nat)
    (k : Key) :
    Keyboard.containsKey (m ++ [(k0, st)]) k =
      (Keyboard.containsKey m k || decide (k0 = k)) := by
  simp [Keyboard.containsKey, List.any_append]

theorem containsKey_filter_ne (m : List (Key × Nat)) (k0 k : Key) :
    Keyboard.containsKey (m.filter (fun p => decide (p.1 ≠ k0))) k =
      (Keyboard.containsKey m k && decide (k ≠ k0)) := by
  simp only [ne_eq, decide_not]
  induction m with
  | nil => rfl
  | cons a rest ih =>
    by_cases ha : a.1 = k0
    · by_cases hk : k = k0
      · subst hk
        simp [List.filter_cons, containsKey_cons, ih, ha]
      · have hk' : k0 ≠ k := fun h => hk h.symm
        simp [List.filter_cons, containsKey_cons, ih, ha, hk, hk']
    · by_cases hk : k = k0
      · subst hk
        simp [List.filter_cons, containsKey_cons, ih, ha]
      · have hk' : k0 ≠ k := fun h => hk h.symm
        simp [List.filter_cons, containsKey_cons, ih, ha, hk, hk']

theorem foldl_pressStep_acc (events : List KeyEvent) (kb : Keyboard)
    (b : List KeyEvent) :
    events.foldl pressStep (kb, b) =
      ((events.foldl pressStep (kb, [])).1,
        b ++ (events.foldl pressStep (kb, [])).2) := by
  induction events generalizing kb b with
  | nil => simp
  | cons e rest ih =>
    simp only [List.foldl_cons]
    cases e with
    | Pressed k =>
      by_cases hc : Keyboard.containsKey kb.state k = true
      · simp only [pressStep, hc, if_true]
        exact ih kb b
      · have hstep : ∀ b0 : List KeyEvent, pressStep (kb, b0) (KeyEvent.Pressed k) =
            (⟨kb.state ++ [(k, kb.last_key_stamp)], kb.last_key_stamp + 1⟩,
              b0 ++ [KeyEvent.Pressed k]) := by
          intro b0
          simp [pressStep, hc]
        rw [hstep b, hstep [], ih _ (b ++ [KeyEvent.Pressed k]),
          ih _ ([] ++ [KeyEvent.Pressed k])]
        simp
    | Released k =>
      simp only [pressStep]
      exact ih kb b

theorem foldl_releaseStep_acc (events : List KeyEvent) (kb : Keyboard)
    (b : List KeyEvent) :
    events.foldl releaseStep (kb, b) =
      ((events.foldl releaseStep (kb, [])).1,
        b ++ (events.foldl releaseStep (kb, [])).2) := by
  induction events generalizing kb b with
  | nil => simp
  | cons e rest ih =>
    simp only [List.foldl_cons]
    cases e with
    | Released k =>
      by_cases hc : Keyboard.containsKey kb.state k = true
      · have hstep : ∀ b0 : List KeyEvent, releaseStep (kb, b0) (KeyEvent.Released k) =
            (⟨kb.state.filter (fun p => decide (p.1 ≠ k)), kb.last_key_stamp⟩,
              b0 ++ [KeyEvent.Released k]) := by
          intro b0
          simp [releaseStep, hc]
        rw [hstep b, hstep [], ih _ (b ++ [KeyEvent.Released k]),
          ih _ ([] ++ [KeyEvent.Released k])]
        simp
      · simp only [releaseStep, hc, if_false]
        exact ih kb b
    | Pressed k =>
      simp only [releaseStep]
      exact ih kb b

/-- Recursive form of the Pressed pass of `consume_key_events`. -/
def pressRec (kb : Keyboard) : List KeyEvent → Keyboard × List KeyEvent
  | [] => (kb, [])
  | KeyEvent.Pressed k :: rest =>
    if Keyboard.containsKey kb.state k then pressRec kb rest
    else
      let r := pressRec ⟨kb.state ++ [(k, kb.last_key_stamp)], kb.last_key_stamp + 1⟩ rest
      (r.1, KeyEvent.Pressed k :: r.2)
  | KeyEvent.Released _ :: rest => pressRec kb rest

/-- Recursive form of the Released pass of `consume_key_events`. -/
def releaseRec (kb : Keyboard) : List KeyEvent → Keyboard × List KeyEvent
  | [] => (kb, [])
  | KeyEvent.Released k :: rest =>
    if Keyboard.containsKey kb.state k then
      let r := releaseRec ⟨kb.state.filter (fun p => decide (p.1 ≠ k)), kb.last_key_stamp⟩ rest
      (r.1, KeyEvent.Released k :: r.2)
    else releaseRec kb rest
  | KeyEvent.Pressed _ :: rest => releaseRec kb rest

theorem foldl_pressStep_eq_rec (events : List KeyEvent) (kb : Keyboard) :
    events.foldl pressStep (kb, []) = pressRec kb events := by
  induction events generalizing kb with
  | nil => rfl
  | cons e rest ih =>
    cases e with
    | Pressed k =>
      by_cases hc : Keyboard.containsKey kb.state k = true
      · simp only [List.foldl_cons, pressStep, hc, if_true, pressRec]
        exact ih kb
    
      · have hstep : pressStep (kb, ([] : List KeyEvent)) (KeyEvent.Pressed k) =
            (⟨kb.state ++ [(k, kb.last_key_stamp)], kb.last_key_stamp + 1⟩,
              [KeyEvent.Pressed k]) := by
          simp [pressStep, hc]
        rw [List.foldl_cons, hstep,
          foldl_pressStep_acc rest
            ⟨kb.state ++ [(k, kb.last_key_stamp)], kb.last_key_stamp + 1⟩
            [KeyEvent.Pressed k],
          ih]
        simp only [pressRec, hc, if_false]
        rfl
    | Released k =>
      simp only [List.foldl_cons, pressStep, pressRec]
      exact ih kb

theorem foldl_releaseStep_eq_rec (events : List KeyEvent) (kb : Keyboard) :
    events.foldl releaseStep (kb, []) = releaseRec kb events := by
  induction events generalizing kb with
  | nil => rfl
  | cons e rest ih =>
    cases e with
    | Released k =>
      by_cases hc : Keyboard.containsKey kb.state k = true
      · have hstep : releaseStep (kb, ([] : List KeyEvent)) (KeyEvent.Released k) =
            (⟨kb.state.filter (fun p => decide (p.1 ≠ k)), kb.last_key_stamp⟩,
              [KeyEvent.Released k]) := by
          simp [releaseStep, hc]
        rw [List.foldl_cons, hstep,
          foldl_releaseStep_acc rest
            ⟨kb.state.filter (fun p => decide (p.1 ≠ k)), kb.last_key_stamp⟩
            [KeyEvent.Released k],
          ih]
        simp only [releaseRec, hc, if_true]
        rfl
      · simp only [List.foldl_cons, releaseStep, hc, if_false, releaseRec]
        exact ih kb
    | Pressed k =>
      simp only [List.foldl_cons, releaseStep, releaseRec]
      exact ih kb

/-- Source `consume_key_events` decomposed: the Pressed pass runs first from the
incoming state; the Released pass runs second from the Pressed pass's
resulting state; the batch is the Pressed batch followed by the Released
batch. -/
theorem consume_eq (kb : Keyboard) (evs : List KeyEvent) :
    consume_key_events kb evs =
      ((releaseRec (pressRec kb evs).1 evs).1,
        (pressRec kb evs).2 ++ (releaseRec (pressRec kb evs).1 evs).2) := by
  unfold consume_key_events
  rw [foldl_pressStep_eq_rec,
    show pressRec kb evs = ((pressRec kb evs).1, (pressRec kb evs).2) from rfl,
    foldl_releaseStep_acc evs (pressRec kb evs).1 (pressRec kb evs).2,
    foldl_releaseStep_eq_rec]

theorem containsKey_iff (m : List (Key × Nat)) (k : Key) :
    Keyboard.containsKey m k = true ↔ k ∈ m.map Prod.fst := by
  simp only [Keyboard.containsKey, List.any_eq_true, decide_eq_true_eq,
    List.mem_map]

theorem pressRec_spec (events : List KeyEvent) (kb : Keyboard) :
    (∀ e ∈ (pressRec kb events).2, e.is_press = true) ∧
    (∀ k : Key, KeyEvent.Pressed k ∈ (pressRec kb events).2 ↔
      (KeyEvent.Pressed k ∈ events ∧ Keyboard.containsKey kb.state k = false)) ∧
    (∀ k : Key, Keyboard.containsKey (pressRec kb events).1.state k = true ↔
      (Keyboard.containsKey kb.state k = true ∨ KeyEvent.Pressed k ∈ events)) := by
  induction events generalizing kb with
  | nil => simp [pressRec]
  | cons e rest ih =>
    cases e with
    | Released k0 =>
      obtain ⟨ih1, ih2, ih3⟩ := ih kb
      refine ⟨?_, ?_, ?_⟩
      · simpa [pressRec] using ih1
      · intro k
        rw [show pressRec kb (KeyEvent.Released k0 :: rest) = pressRec kb rest from rfl,
          ih2 k]
        simp
      · intro k
        rw [show pressRec kb (KeyEvent.Released k0 :: rest) = pressRec kb rest from rfl,
          ih3 k]
        simp
    | Pressed k0 =>
      by_cases hc : Keyboard.containsKey kb.state k0 = true
      · have hk0 : pressRec kb (KeyEvent.Pressed k0 :: rest) = pressRec kb rest := by
          simp [pressRec, hc]
        obtain ⟨ih1, ih2, ih3⟩ := ih kb
        refine ⟨?_, ?_, ?_⟩
        · simpa [hk0] using ih1
        · intro k
          rw [hk0, ih2 k]
          by_cases hk : k = k0
          · subst hk
            simp [hc]
          · simp [hk]
        · intro k
          rw [hk0, ih3 k]
          by_cases hk : k = k0
          · subst hk
            simp [hc]
          · simp [hk]
      · have hk0 : pressRec kb (KeyEvent.Pressed k0 :: rest) =
            ((pressRec ⟨kb.state ++ [(k0, kb.last_key_stamp)],
                kb.last_key_stamp + 1⟩ rest).1,
              KeyEvent.Pressed k0 ::
                (pressRec ⟨kb.state ++ [(k0, kb.last_key_stamp)],
                  kb.last_key_stamp + 1⟩ rest).2) := by
          simp [pressRec, hc]
        obtain ⟨ih1, ih2, ih3⟩ :=
          ih ⟨kb.state ++ [(k0, kb.last_key_stamp)], kb.last_key_stamp + 1⟩
        refine ⟨?_, ?_, ?_⟩
        · intro e he
          rw [hk0] at he
          rcases List.mem_cons.mp he with rfl | h
          · rfl
          · exact ih1 e h
        · intro k
          rw [hk0]
          by_cases hk : k = k0
          · subst hk
            simp only [List.mem_cons, KeyEvent.Pressed.injEq]
            constructor
            · intro _
              exact ⟨Or.inl trivial, by simpa using hc⟩
            · intro _
              exact Or.inl trivial
          · have hne : (KeyEvent.Pressed k = KeyEvent.Pressed k0) = False := by
              simp [hk]
            have hk2 : k0 ≠ k := fun h => hk h.symm
            simp only [List.mem_cons, hne, false_or, ih2 k,
              containsKey_append_single]
            simp [hk2, hk]
        · intro k
          rw [hk0]
          simp only [ih3 k, containsKey_append_single]
          by_cases hk : k = k0
          · subst hk
            simp
          · have hk2 : k0 ≠ k := fun h => hk h.symm
            simp [hk2, hk]

theorem releaseRec_spec (events : List KeyEvent) (kb : Keyboard) :
    (∀ e ∈ (releaseRec kb events).2, e.is_release = true) ∧
    (∀ k : Key, KeyEvent.Released k ∈ (releaseRec kb events).2 ↔
      (KeyEvent.Released k ∈ events ∧ Keyboard.containsKey kb.state k = true)) ∧
    (∀ k : Key, Keyboard.containsKey (releaseRec kb events).1.state k = true ↔
      (Keyboard.containsKey kb.state k = true ∧ KeyEvent.Released k ∉ events)) := by
  induction events generalizing kb with
  | nil => simp [releaseRec]
  | cons e rest ih =>
    cases e with
    | Pressed k0 =>
      obtain ⟨ih1, ih2, ih3⟩ := ih kb
      refine ⟨?_, ?_, ?_⟩
      · simpa [releaseRec] using ih1
      · intro k
        rw [show releaseRec kb (KeyEvent.Pressed k0 :: rest) = releaseRec kb rest
            from rfl, ih2 k]
        simp
      · intro k
        rw [show releaseRec kb (KeyEvent.Pressed k0 :: rest) = releaseRec kb rest
            from rfl, ih3 k]
        simp
    | Released k0 =>
      by_cases hc : Keyboard.containsKey kb.state k0 = true
      · have hk0 : releaseRec kb (KeyEvent.Released k0 :: rest) =
            ((releaseRec ⟨kb.state.filter (fun p => decide (p.1 ≠ k0)),
                kb.last_key_stamp⟩ rest).1,
              KeyEvent.Released k0 ::
                (releaseRec ⟨kb.state.filter (fun p => decide (p.1 ≠ k0)),
                  kb.last_key_stamp⟩ rest).2) := by
          simp [releaseRec, hc]
        obtain ⟨ih1, ih2, ih3⟩ :=
          ih ⟨kb.state.filter (fun p => decide (p.1 ≠ k0)), kb.last_key_stamp⟩
        refine ⟨?_, ?_, ?_⟩
        · intro e he
          rw [hk0] at he
          rcases List.mem_cons.mp he with rfl | h
          · rfl
          · exact ih1 e h
        · intro k
          rw [hk0]
          by_cases hk : k = k0
          · subst hk
            simp only [List.mem_cons, KeyEvent.Released.injEq]
            constructor
            · intro _
              exact ⟨Or.inl trivial, hc⟩
            · intro _
              exact Or.inl trivial
          · have hne : (KeyEvent.Released k = KeyEvent.Released k0) = False := by
              simp [hk]
            simp only [List.mem_cons, hne, false_or, ih2 k, containsKey_filter_ne]
            simp [hk]
        · intro k
          rw [hk0]
          simp only [ih3 k, containsKey_filter_ne]
          by_cases hk : k = k0
          · subst hk
            simp
          · simp [hk]
      · have hk0 : releaseRec kb (KeyEvent.Released k0 :: rest) =
            releaseRec kb rest := by
          simp [releaseRec, hc]
        obtain ⟨ih1, ih2, ih3⟩ := ih kb
        refine ⟨?_, ?_, ?_⟩
        · simpa [hk0] using ih1
        · intro k
          rw [hk0, ih2 k]
          by_cases hk : k = k0
          · subst hk
            simp [hc]
          · simp [hk]
        · intro k
          rw [hk0, ih3 k]
          by_cases hk : k = k0
          · subst hk
            simp [hc]
          · simp [hk]

theorem releaseRec_stamp (events : List KeyEvent) (kb : Keyboard) :
    (releaseRec kb events).1.last_key_stamp = kb.last_key_stamp := by
  induction events generalizing kb with
  | nil => rfl
  | cons e rest ih =>
    cases e with
    | Pressed k0 => exact ih kb
    | Released k0 =>
      by_cases hc : Keyboard.containsKey kb.state k0 = true
      · simp only [releaseRec, hc, if_true]
        exact ih _
      · simp only [releaseRec, hc, if_false]
        exact ih kb

/-! ## Claim C3 -/

/-- C3: one consume step applies all Pressed events before any Released event
(the batch is its Pressed entries followed by its Released entries); a Pressed
event enters the batch exactly when its key was not already down (edge
triggered, duplicates suppressed); a Released event enters the batch exactly
when its key is down after the Pressed pass (already down, or pressed in this
same batch); the final down-map holds exactly the keys that were down or
pressed and not released; and a key pressed and released within the same
frame yields a discrete Pressed followed by Released. -/
theorem c3_consume_presses_before_releases (kb : Keyboard) (events : List KeyEvent) :
    ((consume_key_events kb events).2.filter KeyEvent.is_press) ++
      ((consume_key_events kb events).2.filter KeyEvent.is_release) =
      (consume_key_events kb events).2 ∧
    (∀ k : Key, KeyEvent.Pressed k ∈ (consume_key_events kb events).2 ↔
      (KeyEvent.Pressed k ∈ events ∧ Keyboard.containsKey kb.state k = false)) ∧
    (∀ k : Key, KeyEvent.Released k ∈ (consume_key_events kb events).2 ↔
      (KeyEvent.Released k ∈ events ∧
        (Keyboard.containsKey kb.state k = true ∨ KeyEvent.Pressed k ∈ events))) ∧
    (∀ k : Key,
      Keyboard.containsKey (consume_key_events kb events).1.state k = true ↔
      ((Keyboard.containsKey kb.state k = true ∨ KeyEvent.Pressed k ∈ events) ∧
        KeyEvent.Released k ∉ events)) ∧
    (consume_key_events Keyboard.init
        [KeyEvent.Pressed Key.A, KeyEvent.Released Key.A]).2 =
      [KeyEvent.Pressed Key.A, KeyEvent.Released Key.A] := by
  obtain ⟨p1, p2, p3⟩ := pressRec_spec events kb
  obtain ⟨r1, r2, r3⟩ := releaseRec_spec events (pressRec kb events).1
  rw [consume_eq]
  refine ⟨?_, ?_, ?_, ?_, by decide⟩
  · rw [List.filter_append, List.filter_append]
    have hpp : ((pressRec kb events).2.filter KeyEvent.is_press) =
        (pressRec kb events).2 := List.filter_eq_self.mpr p1
    have hrr : ((releaseRec (pressRec kb events).1 events).2.filter
        KeyEvent.is_release) = (releaseRec (pressRec kb events).1 events).2 :=
      List.filter_eq_self.mpr r1
    have hpr : ((releaseRec (pressRec kb events).1 events).2.filter
        KeyEvent.is_press) = [] := by
      rw [List.filter_eq_nil_iff]
      intro e he
      have h := r1 e he
      cases e with
      | Pressed k => exact absurd h (by simp [KeyEvent.is_release])
      | Released k => simp [KeyEvent.is_press]
    have hrp : ((pressRec kb events).2.filter KeyEvent.is_release) = [] := by
      rw [List.filter_eq_nil_iff]
      intro e he
      have h := p1 e he
      cases e with
      | Pressed k => simp [KeyEvent.is_release]
      | Released k => exact absurd h (by simp [KeyEvent.is_press])
    rw [hpp, hrr, hpr, hrp]
    simp
  · intro k
    rw [List.mem_append]
    constructor
    · rintro (h | h)
      · exact (p2 k).1 h
      · have := r1 _ h
        simp [KeyEvent.is_release] at this
    · intro h
      exact Or.inl ((p2 k).2 h)
  · intro k
    rw [List.mem_append]
    constructor
    · rintro (h | h)
      · have := p1 _ h
        simp [KeyEvent.is_press] at this
      · obtain ⟨h1, h2⟩ := (r2 k).1 h
        exact ⟨h1, (p3 k).1 h2⟩
    · rintro ⟨h1, h2⟩
      exact Or.inr ((r2 k).2 ⟨h1, (p3 k).2 h2⟩)
  · intro k
    rw [r3 k, p3 k]

/-- C3 witness: concrete instance of the consume characterization, with an
interleaved batch on a non-empty starting down-map: starting with A down
(stamp 0), consuming `[Released A, Pressed B, Pressed A]` yields the batch
`[Pressed B, Pressed A, Released A]` — presses first, then the release. -/
theorem c3_witness :
    (consume_key_events ⟨[(Key.A, 0)], 1⟩
        [KeyEvent.Released Key.A, KeyEvent.Pressed Key.B,
          KeyEvent.Pressed Key.A]).2.filter KeyEvent.is_press ++
      (consume_key_events ⟨[(Key.A, 0)], 1⟩
        [KeyEvent.Released Key.A, KeyEvent.Pressed Key.B,
          KeyEvent.Pressed Key.A]).2.filter KeyEvent.is_release =
      (consume_key_events ⟨[(Key.A, 0)], 1⟩
        [KeyEvent.Released Key.A, KeyEvent.Pressed Key.B,
          KeyEvent.Pressed Key.A]).2 ∧
    (KeyEvent.Pressed Key.B ∈ (consume_key_events ⟨[(Key.A, 0)], 1⟩
        [KeyEvent.Released Key.A, KeyEvent.Pressed Key.B,
          KeyEvent.Pressed Key.A]).2 ↔
      (KeyEvent.Pressed Key.B ∈ [KeyEvent.Released Key.A, KeyEvent.Pressed Key.B,
          KeyEvent.Pressed Key.A] ∧
        Keyboard.containsKey [(Key.A, 0)] Key.B = false)) :=
  ⟨(c3_consume_presses_before_releases ⟨[(Key.A, 0)], 1⟩
      [KeyEvent.Released Key.A, KeyEvent.Pressed Key.B,
        KeyEvent.Pressed Key.A]).1,
   (c3_consume_presses_before_releases ⟨[(Key.A, 0)], 1⟩
      [KeyEvent.Released Key.A, KeyEvent.Pressed Key.B,
        KeyEvent.Pressed Key.A]).2.1 Key.B⟩

/-! ## Claim C7 -/

/-- C7: the currently-down query returns the down-map entries sorted by
ascending insertion stamp (there is an entry list `l`, a permutation of the
down-map, sorted by stamp, whose keys are returned in order); concretely,
pressing A then B then C yields `[A, B, C]`, and additionally releasing B
yields `[A, C]`. -/
theorem c7_get_keys_down_sorted :
    (∀ kb : Keyboard, ∃ l : List (Key × Nat),
      get_keys_down kb = l.map Prod.fst ∧ l.Perm kb.state ∧
      List.Sorted (fun a b : Key × Nat => a.2 ≤ b.2) l) ∧
    get_keys_down (consume_key_events (consume_key_events (consume_key_events
      Keyboard.init [KeyEvent.Pressed Key.A]).1 [KeyEvent.Pressed Key.B]).1
        [KeyEvent.Pressed Key.C]).1 = [Key.A, Key.B, Key.C] ∧
    get_keys_down (consume_key_events (consume_key_events (consume_key_events
      (consume_key_events Keyboard.init [KeyEvent.Pressed Key.A]).1
        [KeyEvent.Pressed Key.B]).1 [KeyEvent.Pressed Key.C]).1
          [KeyEvent.Released Key.B]).1 = [Key.A, Key.C] := by
  refine ⟨?_, by decide, by decide⟩
  intro kb
  exact ⟨List.insertionSort (fun a b : Key × Nat => a.2 ≤ b.2) kb.state,
    rfl, List.perm_insertionSort _ _, List.sorted_insertionSort _ _⟩

/-! ## Claim C10 -/

theorem pressRec_inv (events : List KeyEvent) (kb : Keyboard)
    (h1 : (kb.state.map Prod.snd).Nodup)
    (h2 : ∀ p ∈ kb.state, p.2 < kb.last_key_stamp)
    (h3 : (kb.state.map Prod.fst).Nodup) :
    ((pressRec kb events).1.state.map Prod.snd).Nodup ∧
    (∀ p ∈ (pressRec kb events).1.state,
      p.2 < (pressRec kb events).1.last_key_stamp) ∧
    ((pressRec kb events).1.state.map Prod.fst).Nodup := by
  induction events generalizing kb with
  | nil => exact ⟨h1, h2, h3⟩
  | cons e rest ih =>
    cases e with
    | Released k0 => exact ih kb h1 h2 h3
    | Pressed k0 =>
      by_cases hc : Keyboard.containsKey kb.state k0 = true
      · have hk0 : pressRec kb (KeyEvent.Pressed k0 :: rest) = pressRec kb rest := by
          simp [pressRec, hc]
        rw [hk0]
        exact ih kb h1 h2 h3
      · have hk0 : (pressRec kb (KeyEvent.Pressed k0 :: rest)).1 =
            (pressRec ⟨kb.state ++ [(k0, kb.last_key_stamp)],
              kb.last_key_stamp + 1⟩ rest).1 := by
          simp [pressRec, hc]
        rw [hk0]
        apply ih
        · rw [List.map_append, List.nodup_append]
          refine ⟨h1, List.nodup_singleton _, ?_⟩
          intro a ha hb
          simp only [List.map_cons, List.map_nil, List.mem_singleton] at hb
          obtain ⟨p, hp, hpa⟩ := List.mem_map.mp ha
          have := h2 p hp
          omega
        · intro p hp
          show p.2 < kb.last_key_stamp + 1
          rcases List.mem_append.mp hp with h | h
          · have := h2 p h
            omega
          · rw [List.mem_singleton] at h
            subst h
            omega
        · rw [List.map_append, List.nodup_append]
          refine ⟨h3, List.nodup_singleton _, ?_⟩
          intro a ha hb
          simp only [List.map_cons, List.map_nil, List.mem_singleton] at hb
          subst hb
          exact hc ((containsKey_iff _ _).mpr ha)

theorem releaseRec_state_sublist (events : List KeyEvent) (kb : Keyboard) :
    (releaseRec kb events).1.state.Sublist kb.state := by
  induction events generalizing kb with
  | nil => exact List.Sublist.refl _
  | cons e rest ih =>
    cases e with
    | Pressed k0 => exact ih kb
    | Released k0 =>
      by_cases hc : Keyboard.containsKey kb.state k0 = true
      · have hk0 : (releaseRec kb (KeyEvent.Released k0 :: rest)).1 =
            (releaseRec ⟨kb.state.filter (fun p => decide (p.1 ≠ k0)),
              kb.last_key_stamp⟩ rest).1 := by
          simp [releaseRec, hc]
        rw [hk0]
        exact (ih _).trans (List.filter_sublist _)
      · have hk0 : (releaseRec kb (KeyEvent.Released k0 :: rest)).1 =
            (releaseRec kb rest).1 := by
          simp [releaseRec, hc]
        rw [hk0]
        exact ih kb

/-- C10: in every keyboard state reachable from the initial state by consume
steps, the stamps stored in the down-map are pairwise distinct and each is
strictly below the stamp counter `last_key_stamp`; each held key occurs
exactly once (the key list is duplicate-free), so the oldest-first ordering
of the currently-down query is total with no ties. -/
theorem c10_reachable_stamps_distinct (kb : Keyboard) (h : Keyboard.Reachable kb) :
    (kb.state.map Prod.snd).Nodup ∧
    (∀ p ∈ kb.state, p.2 < kb.last_key_stamp) ∧
    (kb.state.map Prod.fst).Nodup := by
  induction h with
  | init =>
    refine ⟨List.nodup_nil, ?_, List.nodup_nil⟩
    intro p hp
    simp [Keyboard.init] at hp
  | step kb' evs hr ih =>
    obtain ⟨ih1, ih2, ih3⟩ := ih
    rw [consume_eq]
    obtain ⟨q1, q2, q3⟩ := pressRec_inv evs kb' ih1 ih2 ih3
    have hsub := releaseRec_state_sublist evs (pressRec kb' evs).1
    have hstamp := releaseRec_stamp evs (pressRec kb' evs).1
    refine ⟨?_, ?_, ?_⟩
    · exact (hsub.map Prod.snd).nodup q1
    · intro p hp
      rw [hstamp]
      exact q2 p (hsub.subset hp)
    · exact (hsub.map Prod.fst).nodup q3

/-- C10 witness: the state reached by consuming `[Pressed A, Pressed B]` from
the initial state satisfies the invariant. -/
theorem c10_witness :
    ((consume_key_events Keyboard.init
        [KeyEvent.Pressed Key.A, KeyEvent.Pressed Key.B]).1.state.map
          Prod.snd).Nodup ∧
    (∀ p ∈ (consume_key_events Keyboard.init
        [KeyEvent.Pressed Key.A, KeyEvent.Pressed Key.B]).1.state,
      p.2 < (consume_key_events Keyboard.init
        [KeyEvent.Pressed Key.A, KeyEvent.Pressed Key.B]).1.last_key_stamp) ∧
    ((consume_key_events Keyboard.init
        [KeyEvent.Pressed Key.A, KeyEvent.Pressed Key.B]).1.state.map
          Prod.fst).Nodup :=
  c10_reachable_stamps_distinct _
    (Keyboard.Reachable.step Keyboard.init
      [KeyEvent.Pressed Key.A, KeyEvent.Pressed Key.B] Keyboard.Reachable.init)

/-! ## Claims C4 and C9 (frame loop) -/

/-- The expected loop trace when the callback panics on its `n+1`-st
invocation: `n` full iterations, then an iteration cut short at the callback
(no draw). -/
def panicTrace : Nat → List AppAction
  | 0 => [AppAction.checkRunning, AppAction.clearW, AppAction.consumeK,
      AppAction.callbackA]
  | n + 1 => AppAction.checkRunning :: AppAction.clearW :: AppAction.consumeK ::
      AppAction.callbackA :: AppAction.drawW :: panicTrace n

theorem appLoop_panics (cb : Nat → CbResult) :
    ∀ (n fuel start : Nat), (∀ k < n, cb (start + k) = CbResult.returns true) →
      cb (start + n) = CbResult.panics → n < fuel →
      appLoop cb fuel start true = some (panicTrace n, n + 1, true) := by
  intro n
  induction n with
  | zero =>
    intro fuel start hrun hpanic hfuel
    cases fuel with
    | zero => omega
    | succ f =>
      rw [show start + 0 = start from rfl] at hpanic
      simp only [appLoop, hpanic]
      rfl
  | succ m ih =>
    intro fuel start hrun hpanic hfuel
    cases fuel with
    | zero => omega
    | succ f =>
      have hstart : cb start = CbResult.returns true := by
        have := hrun 0 (Nat.succ_pos m)
        simpa using this
      simp only [appLoop, hstart]
      have hrec := ih f (start + 1)
        (fun k hk => by
          have := hrun (k + 1) (Nat.succ_lt_succ hk)
          rwa [show start + (k + 1) = start + 1 + k from by omega] at this)
        (by rwa [show start + 1 + m = start + (m + 1) from by omega])
        (by omega)
      rw [hrec]
      rfl

theorem appLoop_runs (cb : Nat → CbResult) :
    ∀ (n fuel start : Nat),
      (∀ k : Nat, cb (start + k) = CbResult.returns (decide (k + 1 < n + 1))) →
      n + 1 < fuel →
      appLoop cb fuel start true = some (loopTrace (n + 1), n + 1, false) := by
  intro n
  induction n with
  | zero =>
    intro fuel start hcb hfuel
    cases fuel with
    | zero => omega
    | succ f =>
      have hstart : cb start = CbResult.returns false := by
        have := hcb 0
        simpa using this
      simp only [appLoop, hstart]
      cases f with
      | zero => omega
      | succ g =>
        have hfalse : appLoop cb (g + 1) (start + 1) false =
            some ([AppAction.checkRunning], 0, false) := rfl
        rw [hfalse]
        rfl
  | succ m ih =>
    intro fuel start hcb hfuel
    cases fuel with
    | zero => omega
    | succ f =>
      have hstart : cb start = CbResult.returns true := by
        have := hcb 0
        simpa using this
      simp only [appLoop, hstart]
      have hrec := ih f (start + 1)
        (fun k => by
          have := hcb (k + 1)
          rw [show start + (k + 1) = start + 1 + k from by omega] at this
          rwa [show (decide (k + 1 + 1 < m + 1 + 1) : Bool) =
            decide (k + 1 < m + 1) from decide_eq_decide.mpr (by omega)] at this)
        (by omega)
      rw [hrec]
      rfl

theorem loopTrace_counts (n : Nat) :
    (loopTrace n).count AppAction.callbackA = n ∧
    (loopTrace n).count AppAction.checkRunning = n + 1 ∧
    (loopTrace n).count AppAction.closeW = 0 ∧
    (loopTrace n).count AppAction.promptAck = 0 := by
  induction n with
  | zero => decide
  | succ m ih =>
    simp [loopTrace, List.count_cons, ih.1, ih.2.1, ih.2.2.1, ih.2.2.2]

theorem panicTrace_counts (n : Nat) :
    (panicTrace n).count AppAction.callbackA = n + 1 ∧
    (panicTrace n).count AppAction.checkRunning = n + 1 ∧
    (panicTrace n).count AppAction.closeW = 0 ∧
    (panicTrace n).count AppAction.promptAck = 0 := by
  induction n with
  | zero => decide
  | succ m ih =>
    simp [panicTrace, List.count_cons, ih.1, ih.2.1, ih.2.2.1, ih.2.2.2]

/-- C4 counterexample: when the callback panics on its first invocation, the
acknowledgment prompt comes BEFORE `close` in the action trace (the source
prompts and blocks on stdin first, then closes), and `run` returns normally
(last component `false`): the failure is swallowed, never re-raised,
contradicting the claim that close runs before the prompt and that the
failure is then re-raised. -/
theorem c4_counterexample :
    appRun (fun _ => CbResult.panics) 2 =
      some ([AppAction.openW, AppAction.checkRunning, AppAction.clearW,
        AppAction.consumeK, AppAction.callbackA, AppAction.promptAck,
        AppAction.closeW], 1, false) := by
  decide

/-- C4 (amended): an unwinding panic raised in the callback is intercepted at
the loop boundary; the user is prompted for explicit acknowledgment and then
`close` (terminal restoration) runs — close is the final action, performed
exactly once, so the terminal is not left in raw/alternate-screen state —
but the failure is NOT re-raised: `run` returns normally. -/
theorem c4_amended (cb : Nat → CbResult) (n fuel : Nat)
    (hrun : ∀ k < n, cb k = CbResult.returns true)
    (hpanic : cb n = CbResult.panics) (hfuel : n < fuel) :
    ∃ tr : List AppAction,
      appRun cb fuel = some (tr, n + 1, false) ∧
      tr.getLast? = some AppAction.closeW ∧
      tr.count AppAction.closeW = 1 ∧
      tr.count AppAction.promptAck = 1 ∧
      tr.count AppAction.callbackA = n + 1 := by
  have hloop := appLoop_panics cb n fuel 0
    (fun k hk => by simpa using hrun k hk) (by simpa using hpanic) hfuel
  refine ⟨AppAction.openW :: panicTrace n ++
    [AppAction.promptAck, AppAction.closeW], ?_, ?_, ?_, ?_, ?_⟩
  · unfold appRun
    rw [hloop]
    rfl
  · rw [show AppAction.openW :: panicTrace n ++
        [AppAction.promptAck, AppAction.closeW] =
      (AppAction.openW :: panicTrace n ++ [AppAction.promptAck]) ++
        [AppAction.closeW] from by simp]
    exact List.getLast?_concat _
  · simp [List.count_cons, List.count_append, (panicTrace_counts n).2.2.1]
  · simp [List.count_cons, List.count_append, (panicTrace_counts n).2.2.2]
  · simp [List.count_cons, List.count_append, (panicTrace_counts n).1]

/-- C4 witness: the callback that panics immediately, with fuel 2. -/
theorem c4_witness :
    ∃ tr : List AppAction,
      appRun (fun _ => CbResult.panics) 2 = some (tr, 0 + 1, false) ∧
      tr.getLast? = some AppAction.closeW ∧
      tr.count AppAction.closeW = 1 ∧
      tr.count AppAction.promptAck = 1 ∧
      tr.count AppAction.callbackA = 0 + 1 :=
  c4_amended (fun _ => CbResult.panics) 0 2
    (fun k hk => absurd hk (Nat.not_lt_zero k)) rfl (by decide)

/-- C9: if the callback leaves the stop flag set from its `n`-th invocation on
(and running before that), the loop invokes the callback exactly `n` times,
re-checks the loop condition once per iteration (`n + 1` checks), and then
returns with the terminal restored: `close` is the final action, performed
exactly once after the loop exits, with no acknowledgment prompt. -/
theorem c9_stop_after_n_invocations (cb : Nat → CbResult) (n fuel : Nat)
    (hn : 1 ≤ n)
    (hcb : ∀ k : Nat, cb k = CbResult.returns (decide (k + 1 < n)))
    (hfuel : n < fuel) :
    ∃ tr : List AppAction,
      appRun cb fuel = some (tr, n, false) ∧
      tr.count AppAction.callbackA = n ∧
      tr.count AppAction.checkRunning = n + 1 ∧
      tr.count AppAction.closeW = 1 ∧
      tr.getLast? = some AppAction.closeW ∧
      tr.count AppAction.promptAck = 0 := by
  obtain ⟨m, rfl⟩ : ∃ m, n = m + 1 := ⟨n - 1, by omega⟩
  have hloop := appLoop_runs cb m fuel 0 (fun k => by simpa using hcb k)
    (by omega)
  refine ⟨AppAction.openW :: loopTrace (m + 1) ++ [AppAction.closeW],
    ?_, ?_, ?_, ?_, ?_, ?_⟩
  · unfold appRun
    rw [hloop]
    rfl
  · simp [List.count_cons, List.count_append, (loopTrace_counts (m + 1)).1]
  · simp [List.count_cons, List.count_append, (loopTrace_counts (m + 1)).2.1]
  · simp [List.count_cons, List.count_append, (loopTrace_counts (m + 1)).2.2.1]
  · exact List.getLast?_concat _
  · simp [List.count_cons, List.count_append, (loopTrace_counts (m + 1)).2.2.2]

/-- C9 witness: a callback that sets the stop signal on its 3rd invocation;
with fuel 4 the loop performs exactly 3 invocations and closes. -/
theorem c9_witness :
    ∃ tr : List AppAction,
      appRun (fun k => CbResult.returns (decide (k + 1 < 3))) 4 =
        some (tr, 3, false) ∧
      tr.count AppAction.callbackA = 3 ∧
      tr.count AppAction.checkRunning = 3 + 1 ∧
      tr.count AppAction.closeW = 1 ∧
      tr.getLast? = some AppAction.closeW ∧
      tr.count AppAction.promptAck = 0 :=
  c9_stop_after_n_invocations (fun k => CbResult.returns (decide (k + 1 < 3)))
    3 4 (by decide) (fun k => rfl) (by decide)
